import Mathlib

/-
Shallow embedding of the Secure E-Voting ledger and tallying service.

Sources:
  - storage_service.py   : ledger persistence, vote storage, decryption and
    tallying (store_encrypted_vote, load_ledger, decrypt_all_votes,
    tally_votes, the tally_results endpoint);
  - result_export_module.py : blockchain-style hash linking and chain
    verification (add_blockchain_style_linking, verify_blockchain_integrity).

External primitives are parameters of the embedding:
  - hashlib.sha256 hex digests are modelled as a parameter
    h : String -> String (the code only ever hashes a string concatenation
    and stores the hex digest string);
  - RSA decryption (decrypt_vote_data_local, together with the private key
    loaded from disk) is modelled as a parameter
    decrypt : String -> Except String String, an exception being the
    error case whose message the code records as the failure reason;
  - wall-clock timestamps (datetime.now().isoformat()) are passed in as an
    explicit argument where the code reads the clock.

File persistence: the code keeps the whole ledger in a JSON file and every
operation starts from load_ledger and finishes with save_ledger, so a
persisted state is one Ledger value, and each operation is a function from
the ledger (plus the separately persisted results file, an Option Results)
to the updated ledger and its return value.
-/

set_option autoImplicit false

namespace EVoting

/-- One vote entry of the ledger, as built by store_encrypted_vote
(voter_id, encrypted_vote, timestamp, vote_hash, tallied) and optionally
extended by add_blockchain_style_linking with previous_hash, block_hash and
block_number, which are absent (none) until linking runs. -/
structure VoteEntry where
  voter_id : String
  encrypted_vote : String
  timestamp : String
  vote_hash : String
  tallied : Bool
  previous_hash : Option String := none
  block_hash : Option String := none
  block_number : Option Nat := none
deriving DecidableEq

/-- The metadata object of the ledger JSON file. created_at is wall-clock
noise never read by any operation and is omitted; last_updated is kept as an
optional string set by store_encrypted_vote. -/
structure Metadata where
  total_votes : Nat
  last_tallied_index : Int
  last_updated : Option String := none
deriving DecidableEq

/-- The persisted ledger document: votes plus metadata, extended by
add_blockchain_style_linking with blockchain_enabled, chain_length and
latest_block_hash. -/
structure Ledger where
  votes : List VoteEntry
  metadata : Metadata
  blockchain_enabled : Bool := false
  chain_length : Option Nat := none
  latest_block_hash : Option String := none
deriving DecidableEq

/-- The default ledger value that load_ledger returns when reading the
ledger file raises (file missing, unreadable or invalid JSON), line 103 of
storage_service.py. -/
def emptyLedger : Ledger :=
  { votes := []
    metadata := { total_votes := 0, last_tallied_index := -1 } }

/-- The three ways reading the ledger file can go wrong (caught by the bare
except of load_ledger), plus a successful read of a ledger document. -/
inductive FileState where
  | missing
  | unreadable
  | notValidJSON
  | stored (l : Ledger)
deriving DecidableEq

/-- load_ledger: returns the parsed ledger document on a successful read,
and on any exception the default empty ledger document. -/
def load_ledger : FileState → Ledger
  | .stored l => l
  | _ => emptyLedger

/-- store_encrypted_vote (storage_service.py lines 113-138) on a loaded
ledger: scans all existing entries for the voter_id, rejects a duplicate
voter, otherwise appends a new entry with tallied := false, sets
total_votes to the new list length and last_updated to the current time.
Returns the (success, hash-or-reason) pair together with the saved
ledger. -/
def store_encrypted_vote (h : String → String) (voter_id encrypted_vote timestamp now : String)
    (ledger : Ledger) : (Bool × String) × Ledger :=
  if ledger.votes.any (fun v => v.voter_id == voter_id) then
    ((false, "Voter has already cast a vote"), ledger)
  else
    let vote_entry : VoteEntry :=
      { voter_id := voter_id
        encrypted_vote := encrypted_vote
        timestamp := timestamp
        vote_hash := h (voter_id ++ encrypted_vote ++ timestamp)
        tallied := false }
    let votes := ledger.votes ++ [vote_entry]
    ((true, vote_entry.vote_hash),
      { ledger with
          votes := votes
          metadata := { ledger.metadata with
                          total_votes := votes.length
                          last_updated := some now } })

/-- A decrypted vote as accumulated by decrypt_all_votes: the three parts
of the plaintext voter_id|candidate|timestamp. -/
structure DecryptedVote where
  voter_id : String
  candidate : String
  timestamp : String
deriving DecidableEq

/-- A failed-vote record of decrypt_all_votes: the ledger voter_id and the
recorded reason. -/
structure FailedVote where
  voter_id : String
  reason : String
deriving DecidableEq

/-- Python str.split with a one-character separator, on the character
list: splitting the empty string gives one empty part, a separator starts
a fresh part, and any other character is prepended to the current (first)
part. -/
def splitBarChars : List Char → List (List Char)
  | [] => [[]]
  | c :: rest =>
    let r := splitBarChars rest
    if c = '|' then [] :: r
    else
      match r with
      | [] => [[c]]
      | g :: gs => (c :: g) :: gs

/-- decrypted_vote_string.split of the bar character, exactly Python's
str.split with a one-character separator. -/
def splitBar (s : String) : List String :=
  (splitBarChars s.toList).map (fun cs => String.mk cs)

/-- Python list slicing votes[i:] for an integer i: a nonnegative start
drops the first i elements, a negative start counts from the end (clamped
at zero). -/
def pySliceFrom {α : Type} (i : Int) (l : List α) : List α :=
  if 0 ≤ i then l.drop i.toNat else l.drop ((l.length + i).toNat)

/-- The range of votes decrypt_all_votes processes: all votes when
tally_all, otherwise the slice strictly after last_tallied_index. -/
def votes_to_process (tally_all : Bool) (ledger : Ledger) : List VoteEntry :=
  if tally_all then ledger.votes
  else pySliceFrom (ledger.metadata.last_tallied_index + 1) ledger.votes

/-- The per-entry loop of decrypt_all_votes (lines 183-217): each entry is
decrypted; a plaintext with exactly three parts separated by the bar
character joins decrypted_votes, any other part count is recorded as the
soft failure with reason Invalid format after decryption, and a decryption
exception is recorded with its message. No failure stops the loop. -/
def processVotes (decrypt : String → Except String String) :
    List VoteEntry → List DecryptedVote × List FailedVote
  | [] => ([], [])
  | v :: rest =>
    let r := processVotes decrypt rest
    match decrypt v.encrypted_vote with
    | .ok s =>
      match splitBar s with
      | [pv, c, t] => (⟨pv, c, t⟩ :: r.1, r.2)
      | _ => (r.1, ⟨v.voter_id, "Invalid format after decryption"⟩ :: r.2)
    | .error e => (r.1, ⟨v.voter_id, e⟩ :: r.2)

/-- decrypt_all_votes (storage_service.py lines 142-232): selects the range
(all votes, or only those after last_tallied_index), returns immediately if
the range is empty, otherwise processes every entry of the range and, when
at least one vote decrypted successfully, saves the ledger with
last_tallied_index set to the index of the last vote. The time-lock sleep
affects timing only and has no effect on the state. Returns the decrypted
votes, the failed votes and the ledger as left on disk. -/
def decrypt_all_votes (decrypt : String → Except String String) (tally_all : Bool)
    (ledger : Ledger) : List DecryptedVote × List FailedVote × Ledger :=
  let vp := votes_to_process tally_all ledger
  if vp.length = 0 then ([], [], ledger)
  else
    let r := processVotes decrypt vp
    if r.1.isEmpty then (r.1, r.2, ledger)
    else
      (r.1, r.2,
        { ledger with
            metadata := { ledger.metadata with
                            last_tallied_index := (ledger.votes.length : Int) - 1 } })

/-- vote_counts.get(candidate, 0) over the insertion-ordered counts
mapping, modelled as an association list with unique keys in insertion
order exactly as a Python dict iterates. -/
def getCount (counts : List (String × Nat)) (c : String) : Nat :=
  match counts.find? (fun p => p.1 == c) with
  | some p => p.2
  | none => 0

/-- vote_counts[candidate] = vote_counts.get(candidate, 0) + 1 on a Python
dict: an existing key is updated in place keeping its position, a new key
is appended at the end. -/
def incrCount (counts : List (String × Nat)) (c : String) : List (String × Nat) :=
  if counts.any (fun p => p.1 == c) then
    counts.map (fun p => if p.1 == c then (p.1, p.2 + 1) else p)
  else
    counts ++ [(c, 1)]

/-- The aggregation loop of tally_votes: fold the new decrypted votes into
a counts mapping, one increment per vote, in order. -/
def countVotes (init : List (String × Nat)) (votes : List DecryptedVote) :
    List (String × Nat) :=
  votes.foldl (fun vc v => incrCount vc v.candidate) init

/-- sum(vote_counts.values()). -/
def sumCounts (counts : List (String × Nat)) : Nat :=
  (counts.map (fun p => p.2)).sum

/-- max(vote_counts, key=vote_counts.get): Python max takes the first
element as the running best and replaces it only on a strictly greater
key, so it returns the first key attaining the maximal count in dict
(insertion) order; raises on an empty dict, which tally_votes guards with
the emptiness check, so the empty case is none here. -/
def firstMaxKey (counts : List (String × Nat)) : Option String :=
  match counts with
  | [] => none
  | p :: rest => some (rest.foldl (fun best q => if q.2 > best.2 then q else best) p).1

/-- The persisted election results document written by tally_votes.
The wall-clock timestamp field is omitted (never read back by any
operation used here beyond display). -/
structure Results where
  vote_counts : List (String × Nat)
  winner : Option String
  total_votes : Nat
  tally_type : String
deriving DecidableEq

/-- tally_votes (storage_service.py lines 235-291): in incremental mode
with an existing results file, the new votes are added onto the persisted
vote_counts and total_votes is the sum of all counts; otherwise (full mode,
or no results file yet) the counts are rebuilt from the new votes alone and
total_votes is their number. The winner is the first key attaining the
maximal count, or none when the counts mapping is empty. -/
def tally_votes (existing : Option Results) (new_decrypted_votes : List DecryptedVote)
    (incremental : Bool) : Results :=
  let vc_total : List (String × Nat) × Nat :=
    match incremental, existing with
    | true, some res =>
      let vc := countVotes res.vote_counts new_decrypted_votes
      (vc, sumCounts vc)
    | _, _ =>
      let vc := countVotes [] new_decrypted_votes
      (vc, new_decrypted_votes.length)
  { vote_counts := vc_total.1
    winner := firstMaxKey vc_total.1
    total_votes := vc_total.2
    tally_type := if incremental then "incremental" else "full" }

/-- The outcomes of the tally_results endpoint: the two rejected requests,
the zero-successful-decryptions failure, and success carrying the results
and the number of votes processed. -/
inductive TallyOutcome where
  | noVotesInLedger
  | noNewVotes
  | tallyFailed
  | success (results : Results) (votes_processed : Nat)
deriving DecidableEq

/-- The tally_results endpoint (storage_service.py lines 363-447), state
part: rejects an empty ledger, rejects an incremental run with no new
votes, runs decrypt_all_votes (full exactly when mode is the string full),
fails when nothing decrypted, otherwise tallies (incremental exactly when
mode is the string incremental) and persists the results. Returns the
outcome, the ledger file and the results file as left on disk. -/
def tally_results (decrypt : String → Except String String) (mode : String)
    (ledger : Ledger) (existing : Option Results) :
    TallyOutcome × Ledger × Option Results :=
  let total_votes_in_ledger := ledger.votes.length
  let last_tallied := ledger.metadata.last_tallied_index
  let new_votes_count : Int := (total_votes_in_ledger : Int) - (last_tallied + 1)
  if total_votes_in_ledger = 0 then (.noVotesInLedger, ledger, existing)
  else if mode == "incremental" && new_votes_count == 0 then
    (.noNewVotes, ledger, existing)
  else
    let r := decrypt_all_votes decrypt (mode == "full") ledger
    if r.1.isEmpty then (.tallyFailed, r.2.2, existing)
    else
      let results := tally_votes existing r.1 (mode == "incremental")
      (.success results r.1.length, r.2.2, some results)

/-- The genesis previous hash: 64 zero characters. -/
def genesisHash : String := String.mk (List.replicate 64 '0')

/-- The linking loop of add_blockchain_style_linking (lines 169-182):
starting from prev, assign each vote its previous_hash, its
block_hash = h (voter_id ++ encrypted_vote ++ timestamp ++ previous_hash)
and its 1-based block_number, chaining each block hash into the next
entry. Returns the relinked votes and the final (latest) block hash. -/
def chainFold (h : String → String) : String → Nat → List VoteEntry →
    List VoteEntry × String
  | prev, _, [] => ([], prev)
  | prev, idx, v :: rest =>
    let cur := h (v.voter_id ++ v.encrypted_vote ++ v.timestamp ++ prev)
    let r := chainFold h cur (idx + 1) rest
    ({ v with previous_hash := some prev, block_hash := some cur,
              block_number := some (idx + 1) } :: r.1, r.2)

/-- add_blockchain_style_linking (result_export_module.py lines 153-200):
returns none without touching the file when there are no votes, otherwise
relinks every vote starting from the genesis hash and saves the ledger with
blockchain_enabled, chain_length and latest_block_hash set. -/
def add_blockchain_style_linking (h : String → String) (ledger : Ledger) : Option Ledger :=
  if ledger.votes.isEmpty then none
  else
    let r := chainFold h genesisHash 0 ledger.votes
    some { ledger with
             votes := r.1
             blockchain_enabled := true
             chain_length := some r.1.length
             latest_block_hash := some r.2 }

/-- The result of verify_blockchain_integrity: the function returns False
when the ledger is not blockchain-linked, returns False at the first block
whose stored previous_hash or block_hash disagrees with the recomputation
(reporting that block's 0-based index idx in its message), and True when
every block checks out. -/
inductive VerifyResult where
  | notEnabled
  | mismatch (idx : Nat)
  | valid
deriving DecidableEq

/-- The verification loop of verify_blockchain_integrity (lines 220-234):
walk the votes recomputing the chain from prev; stop at the first entry
whose stored previous_hash differs from the recomputed one or whose stored
block_hash differs from the recomputed hash, reporting its index. -/
def verifyLoop (h : String → String) : String → Nat → List VoteEntry → Option Nat
  | _, _, [] => none
  | prev, idx, v :: rest =>
    if v.previous_hash ≠ some prev then some idx
    else
      let calculated := h (v.voter_id ++ v.encrypted_vote ++ v.timestamp ++ prev)
      if v.block_hash ≠ some calculated then some idx
      else verifyLoop h calculated (idx + 1) rest

/-- verify_blockchain_integrity (result_export_module.py lines 203-241):
reports not-linked when blockchain_enabled is unset, otherwise recomputes
the chain from the genesis hash and reports the first mismatching index,
or valid when there is none. -/
def verify_blockchain_integrity (h : String → String) (ledger : Ledger) : VerifyResult :=
  if !ledger.blockchain_enabled then .notEnabled
  else
    match verifyLoop h genesisHash 0 ledger.votes with
    | some idx => .mismatch idx
    | none => .valid

/-- Well-formedness of a persisted ledger: the metadata vote counter equals
the number of stored entries. init_ledger establishes it and
store_encrypted_vote maintains it. -/
def WF (l : Ledger) : Prop := l.metadata.total_votes = l.votes.length

/-- Whether a ledger entry will decrypt and parse successfully inside the
tally loop: decryption succeeds and the plaintext has exactly three
bar-separated parts. Mirrors the two branch conditions of processVotes. -/
def decOk (decrypt : String → Except String String) (v : VoteEntry) : Bool :=
  match decrypt v.encrypted_vote with
  | .ok s =>
    match splitBar s with
    | [_, _, _] => true
    | _ => false
  | .error _ => false

/-- store_vote as seen from the persisted file: load the ledger (with the
failure fallback) and store. -/
def store_vote_file (h : String → String) (voter_id encrypted_vote timestamp now : String)
    (fs : FileState) : (Bool × String) × Ledger :=
  store_encrypted_vote h voter_id encrypted_vote timestamp now (load_ledger fs)

/-- tally_results as seen from the persisted file: load the ledger (with
the failure fallback) and tally. -/
def tally_results_file (decrypt : String → Except String String) (mode : String)
    (fs : FileState) (existing : Option Results) :
    TallyOutcome × Ledger × Option Results :=
  tally_results decrypt mode (load_ledger fs) existing

/-- The interleaving in which a vote is appended while a tally run is
between its snapshot load (storage_service.py line 151) and its final save
(lines 220-222): the append reads and writes the shared ledger file during
the time-lock sleep; when at least one vote decrypts, the tally run then
saves its own stale snapshot over the file, otherwise the file keeps the
appended state. Returns the append's return value and the final file. -/
def append_during_tally (h : String → String) (decrypt : String → Except String String)
    (voter_id encrypted_vote timestamp now : String) (file0 : Ledger) :
    (Bool × String) × Ledger :=
  let snapshot := file0
  let ap := store_encrypted_vote h voter_id encrypted_vote timestamp now file0
  let t := decrypt_all_votes decrypt false snapshot
  (ap.1, if t.1.isEmpty then ap.2 else t.2.2)

/-- The persisted-state transition system of the service: the initialized
(or failed-to-read) empty ledger, closed under vote storage, tally runs
(over any decryption outcome, mode and results file) and chain linking. -/
inductive Reachable (h : String → String) : Ledger → Prop
  | init : Reachable h emptyLedger
  | store (voter_id encrypted_vote timestamp now : String) {l : Ledger} :
      Reachable h l → Reachable h (store_encrypted_vote h voter_id encrypted_vote timestamp now l).2
  | tally (decrypt : String → Except String String) (mode : String)
      (existing : Option Results) {l : Ledger} :
      Reachable h l → Reachable h (tally_results decrypt mode l existing).2.1
  | link {l l' : Ledger} : Reachable h l →
      add_blockchain_style_linking h l = some l' → Reachable h l'

/-! ### Concrete fixtures used by the example parts of the claims -/

/-- A stand-in for the external sha256 hex digest, used only at concrete
inputs where any function works. -/
def hashF : String → String := fun s => "#" ++ s

/-- A concrete decryption oracle: three well-formed ciphertexts for voters
V1 (candidate A), V2 (candidate A) and V3 (candidate B); everything else
fails to decrypt. -/
def decryptF : String → Except String String := fun c =>
  if c = "c1" then .ok "V1|A|T1"
  else if c = "c2" then .ok "V2|A|T2"
  else if c = "c3" then .ok "V3|B|T3"
  else .error "Decryption failed"

/-- Ledger after appending voter V1 (candidate A). -/
def ledA1 : Ledger := (store_encrypted_vote hashF "V1" "c1" "T1" "n1" emptyLedger).2

/-- First incremental tally run, over V1 only. -/
def runA1 : TallyOutcome × Ledger × Option Results :=
  tally_results decryptF "incremental" ledA1 none

/-- Ledger after also appending voter V2 (candidate A). -/
def ledA2 : Ledger := (store_encrypted_vote hashF "V2" "c2" "T2" "n2" runA1.2.1).2

/-- Second incremental tally run, over V2 only. -/
def runA2 : TallyOutcome × Ledger × Option Results :=
  tally_results decryptF "incremental" ledA2 runA1.2.2

/-- Ledger after also appending voter V3 (candidate B). -/
def ledA3 : Ledger := (store_encrypted_vote hashF "V3" "c3" "T3" "n3" runA2.2.1).2

/-- Third incremental tally run, over V3 only. -/
def runA3 : TallyOutcome × Ledger × Option Results :=
  tally_results decryptF "incremental" ledA3 runA2.2.2

/-- One full tally run over all three votes. -/
def runFull : TallyOutcome × Ledger × Option Results :=
  tally_results decryptF "full" ledA3 none

/-- A three-entry ledger whose second entry's ciphertext is corrupted
(fails to decrypt); the other two decrypt fine. -/
def led3 : Ledger :=
  (store_encrypted_vote hashF "V3" "c3" "T3" "n3"
    (store_encrypted_vote hashF "V2" "bad" "T2" "n2"
      (store_encrypted_vote hashF "V1" "c1" "T1" "n1" emptyLedger).2).2).2

/-! ### Helper lemmas -/

/-- The votes list is untouched by decrypt_all_votes: only the metadata
high-water mark can change. -/
theorem decrypt_all_votes_votes (decrypt : String → Except String String) (tally_all : Bool)
    (ledger : Ledger) : (decrypt_all_votes decrypt tally_all ledger).2.2.votes = ledger.votes := by
  unfold decrypt_all_votes
  dsimp only
  split
  · rfl
  · split <;> rfl

/-- decrypt_all_votes either leaves the ledger alone or sets the high-water
mark to the last index of the ledger, and it does the latter exactly when at
least one vote decrypted. -/
theorem decrypt_all_votes_ledger (decrypt : String → Except String String) (tally_all : Bool)
    (ledger : Ledger) :
    ((decrypt_all_votes decrypt tally_all ledger).1 = [] →
      (decrypt_all_votes decrypt tally_all ledger).2.2 = ledger) ∧
    ((decrypt_all_votes decrypt tally_all ledger).1 ≠ [] →
      (decrypt_all_votes decrypt tally_all ledger).2.2 =
        { ledger with metadata := { ledger.metadata with
            last_tallied_index := (ledger.votes.length : Int) - 1 } }) := by
  unfold decrypt_all_votes
  dsimp only
  split
  · exact ⟨fun _ => rfl, fun hne => absurd rfl hne⟩
  · split
    case isTrue hemp =>
      refine ⟨fun _ => rfl, fun hne => absurd ?_ hne⟩
      simpa [List.isEmpty_iff] using hemp
    case isFalse hemp =>
      refine ⟨fun he => ?_, fun _ => rfl⟩
      have he2 : (processVotes decrypt (votes_to_process tally_all ledger)).1 = [] := he
      simp [he2] at hemp

/-- The per-entry loop records every entry exactly once: the successful
decryptions are those satisfying decOk, the failures are the rest. -/
theorem processVotes_lengths (decrypt : String → Except String String) :
    ∀ vs : List VoteEntry,
      (processVotes decrypt vs).1.length = vs.countP (fun v => decOk decrypt v) ∧
      (processVotes decrypt vs).2.length = vs.countP (fun v => !decOk decrypt v) := by
  intro vs
  induction vs with
  | nil => simp [processVotes]
  | cons v rest ih =>
    obtain ⟨ih1, ih2⟩ := ih
    cases hd : decrypt v.encrypted_vote with
    | ok s =>
      cases hsp : splitBar s with
      | nil => simp [processVotes, decOk, hd, hsp, ih1, ih2]
      | cons a t1 =>
        cases t1 with
        | nil => simp [processVotes, decOk, hd, hsp, ih1, ih2]
        | cons b t2 =>
          cases t2 with
          | nil => simp [processVotes, decOk, hd, hsp, ih1, ih2]
          | cons c t3 =>
            cases t3 with
            | nil => simp [processVotes, decOk, hd, hsp, ih1, ih2]
            | cons dd t4 => simp [processVotes, decOk, hd, hsp, ih1, ih2]
    | error e => simp [processVotes, decOk, hd, ih1, ih2]

/-- The voter_id check of store_encrypted_vote, as a proposition. -/
theorem store_any_iff (voter_id : String) (l : Ledger) :
    (l.votes.any (fun v => v.voter_id == voter_id)) = true ↔
      ∃ v ∈ l.votes, v.voter_id = voter_id := by
  simp [List.any_eq_true]

/-- A tally run never changes the stored votes, only the metadata
high-water mark (and the separately persisted results file). -/
theorem tally_results_votes (decrypt : String → Except String String) (mode : String)
    (ledger : Ledger) (existing : Option Results) :
    (tally_results decrypt mode ledger existing).2.1.votes = ledger.votes := by
  unfold tally_results
  dsimp only
  split
  · rfl
  · split
    · rfl
    · split
      · exact decrypt_all_votes_votes decrypt (mode == "full") ledger
      · exact decrypt_all_votes_votes decrypt (mode == "full") ledger

/-- Unfolding equation of chainFold on the empty list. -/
theorem chainFold_nil (h : String → String) (prev : String) (idx : Nat) :
    chainFold h prev idx [] = ([], prev) := rfl

/-- Unfolding equation of chainFold on a cons: the head gets its three
chain fields, the tail is chained from the head's block hash. -/
theorem chainFold_cons (h : String → String) (v : VoteEntry) (rest : List VoteEntry)
    (prev : String) (idx : Nat) :
    chainFold h prev idx (v :: rest) =
      ({ v with
          previous_hash := some prev
          block_hash := some (h (v.voter_id ++ v.encrypted_vote ++ v.timestamp ++ prev))
          block_number := some (idx + 1) } ::
        (chainFold h (h (v.voter_id ++ v.encrypted_vote ++ v.timestamp ++ prev)) (idx + 1) rest).1,
       (chainFold h (h (v.voter_id ++ v.encrypted_vote ++ v.timestamp ++ prev)) (idx + 1) rest).2) := rfl

/-- chainFold keeps the number of entries. -/
theorem chainFold_length (h : String → String) :
    ∀ (vs : List VoteEntry) (prev : String) (idx : Nat),
      ((chainFold h prev idx vs).1).length = vs.length := by
  intro vs
  induction vs with
  | nil => intro prev idx; rfl
  | cons v rest ih => intro prev idx; simp [chainFold, ih]

/-- The verification loop accepts exactly the chain the linking loop
produced (same starting hash and index). -/
theorem verifyLoop_chainFold (h : String → String) :
    ∀ (vs : List VoteEntry) (prev : String) (idx : Nat),
      verifyLoop h prev idx ((chainFold h prev idx vs).1) = none := by
  intro vs
  induction vs with
  | nil => intro prev idx; rfl
  | cons v rest ih => intro prev idx; simp [chainFold, verifyLoop, ih]

/-- The linking loop only writes the three chain fields: the source fields
of every entry are preserved, and the block number is its 1-based position
offset by the starting index. -/
theorem chainFold_fields (h : String → String) :
    ∀ (vs : List VoteEntry) (prev : String) (idx i : Nat)
      (hi : i < ((chainFold h prev idx vs).1).length) (hv : i < vs.length),
      (((chainFold h prev idx vs).1).get ⟨i, hi⟩).voter_id = (vs.get ⟨i, hv⟩).voter_id ∧
      (((chainFold h prev idx vs).1).get ⟨i, hi⟩).encrypted_vote = (vs.get ⟨i, hv⟩).encrypted_vote ∧
      (((chainFold h prev idx vs).1).get ⟨i, hi⟩).timestamp = (vs.get ⟨i, hv⟩).timestamp ∧
      (((chainFold h prev idx vs).1).get ⟨i, hi⟩).vote_hash = (vs.get ⟨i, hv⟩).vote_hash ∧
      (((chainFold h prev idx vs).1).get ⟨i, hi⟩).tallied = (vs.get ⟨i, hv⟩).tallied ∧
      (((chainFold h prev idx vs).1).get ⟨i, hi⟩).block_number = some (idx + i + 1) := by
  intro vs
  induction vs with
  | nil => intro prev idx i hi hv; exact absurd hv (by simp)
  | cons v rest ih =>
    intro prev idx i hi hv
    cases i with
    | zero => simp [chainFold_cons]
    | succ j =>
      have hi2 : j < ((chainFold h (h (v.voter_id ++ v.encrypted_vote ++ v.timestamp ++ prev))
          (idx + 1) rest).1).length := by
        rw [chainFold_length]
        rw [chainFold_length] at hi
        simpa using hi
      have hv2 : j < rest.length := by simpa using hv
      obtain ⟨h1, h2, h3, h4, h5, h6⟩ :=
        ih (h (v.voter_id ++ v.encrypted_vote ++ v.timestamp ++ prev)) (idx + 1) j hi2 hv2
      refine ⟨?_, ?_, ?_, ?_, ?_, ?_⟩
      · simpa [chainFold_cons] using h1
      · simpa [chainFold_cons] using h2
      · simpa [chainFold_cons] using h3
      · simpa [chainFold_cons] using h4
      · simpa [chainFold_cons] using h5
      · rw [show idx + (j + 1) + 1 = (idx + 1) + j + 1 by omega]
        simpa [chainFold_cons] using h6

/-- The first linked entry's previous hash is the starting hash. -/
theorem chainFold_head_prev (h : String → String) (vs : List VoteEntry) (prev : String)
    (idx : Nat) (hi : 0 < ((chainFold h prev idx vs).1).length) :
    (((chainFold h prev idx vs).1).get ⟨0, hi⟩).previous_hash = some prev := by
  cases vs with
  | nil => simp [chainFold] at hi
  | cons v rest => simp [chainFold]

/-- Each linked entry's previous hash is the preceding entry's block
hash. -/
theorem chainFold_prev_succ (h : String → String) :
    ∀ (vs : List VoteEntry) (prev : String) (idx i : Nat)
      (hi1 : i + 1 < ((chainFold h prev idx vs).1).length)
      (hi0 : i < ((chainFold h prev idx vs).1).length),
      (((chainFold h prev idx vs).1).get ⟨i + 1, hi1⟩).previous_hash =
        (((chainFold h prev idx vs).1).get ⟨i, hi0⟩).block_hash := by
  intro vs
  induction vs with
  | nil => intro prev idx i hi1 hi0; simp [chainFold] at hi0
  | cons v rest ih =>
    intro prev idx i hi1 hi0
    cases i with
    | zero =>
      have hlen : 0 < ((chainFold h (h (v.voter_id ++ v.encrypted_vote ++ v.timestamp ++ prev))
          (idx + 1) rest).1).length := by
        simp [chainFold] at hi1
        omega
      simpa [chainFold] using chainFold_head_prev h rest _ (idx + 1) hlen
    | succ j =>
      have hj1 : j + 1 < ((chainFold h (h (v.voter_id ++ v.encrypted_vote ++ v.timestamp ++ prev))
          (idx + 1) rest).1).length := by
        simp [chainFold] at hi1
        omega
      have hj0 : j < ((chainFold h (h (v.voter_id ++ v.encrypted_vote ++ v.timestamp ++ prev))
          (idx + 1) rest).1).length := by omega
      simpa [chainFold] using ih _ (idx + 1) j hj1 hj0

/-- Each linked entry's block hash is the hash of its own voter, cipher,
timestamp and stored previous hash. -/
theorem chainFold_block_formula (h : String → String) :
    ∀ (vs : List VoteEntry) (prev : String) (idx i : Nat)
      (hi : i < ((chainFold h prev idx vs).1).length), ∃ p,
      (((chainFold h prev idx vs).1).get ⟨i, hi⟩).previous_hash = some p ∧
      (((chainFold h prev idx vs).1).get ⟨i, hi⟩).block_hash =
        some (h ((((chainFold h prev idx vs).1).get ⟨i, hi⟩).voter_id ++
          (((chainFold h prev idx vs).1).get ⟨i, hi⟩).encrypted_vote ++
          (((chainFold h prev idx vs).1).get ⟨i, hi⟩).timestamp ++ p)) := by
  intro vs
  induction vs with
  | nil => intro prev idx i hi; simp [chainFold] at hi
  | cons v rest ih =>
    intro prev idx i hi
    cases i with
    | zero => exact ⟨prev, by simp [chainFold]⟩
    | succ j =>
      have hj : j < ((chainFold h (h (v.voter_id ++ v.encrypted_vote ++ v.timestamp ++ prev))
          (idx + 1) rest).1).length := by
        simp [chainFold] at hi
        omega
      obtain ⟨p, hp, hb⟩ := ih _ (idx + 1) j hj
      exact ⟨p, by simpa [chainFold] using hp, by simpa [chainFold] using hb⟩

/-- Relinking an already linked list recomputes exactly the same chain:
the linking loop reads only the source fields, which it never changes. -/
theorem chainFold_idem (h : String → String) :
    ∀ (vs : List VoteEntry) (prev : String) (idx : Nat),
      chainFold h prev idx ((chainFold h prev idx vs).1) = chainFold h prev idx vs := by
  intro vs
  induction vs with
  | nil => intro prev idx; rfl
  | cons v rest ih => intro prev idx; simp [chainFold, ih]

/-- Mutating the stored ciphertext of the entry at position i of a linked
chain (so that its recomputed block hash no longer matches the stored one)
makes the verification loop stop at exactly that entry. -/
theorem verifyLoop_set_mutation (h : String → String) (ct' : String) :
    ∀ (vs : List VoteEntry) (prev : String) (idx i : Nat)
      (hi : i < ((chainFold h prev idx vs).1).length)
      (hne : ∀ p, (((chainFold h prev idx vs).1).get ⟨i, hi⟩).previous_hash = some p →
        some (h ((((chainFold h prev idx vs).1).get ⟨i, hi⟩).voter_id ++ ct' ++
          (((chainFold h prev idx vs).1).get ⟨i, hi⟩).timestamp ++ p)) ≠
          (((chainFold h prev idx vs).1).get ⟨i, hi⟩).block_hash),
      verifyLoop h prev idx (((chainFold h prev idx vs).1).set i
        { ((chainFold h prev idx vs).1).get ⟨i, hi⟩ with encrypted_vote := ct' }) =
        some (idx + i) := by
  intro vs
  induction vs with
  | nil => intro prev idx i hi _hne; simp [chainFold] at hi
  | cons v rest ih =>
    intro prev idx i hi hne
    cases i with
    | zero =>
      have hx := hne prev (by simp [chainFold_cons])
      simp [chainFold_cons] at hx
      simp [chainFold_cons, verifyLoop, hx]
      intro hc
      exact absurd hc.symm hx
    | succ j =>
      have hj : j < ((chainFold h (h (v.voter_id ++ v.encrypted_vote ++ v.timestamp ++ prev))
          (idx + 1) rest).1).length := by
        rw [chainFold_length]
        rw [chainFold_length] at hi
        simpa using hi
      have hrec := ih (h (v.voter_id ++ v.encrypted_vote ++ v.timestamp ++ prev)) (idx + 1) j hj
        (by
          intro p hp
          have := hne p (by simpa [chainFold_cons] using hp)
          simpa [chainFold_cons] using this)
      rw [show idx + (j + 1) = (idx + 1) + j by omega]
      simpa [chainFold_cons, verifyLoop] using hrec

/-! ### Claims -/

/-- Claim C1: store_encrypted_vote rejects a duplicate voter with the
rejection message and an unchanged ledger; on a fresh voter it returns
success with the entry hash, appends exactly one entry with
tallied := false, and the metadata vote count grows by exactly one; and a
second append of the same voter after a successful first one returns the
duplicate rejection and leaves the ledger unchanged. -/
theorem store_encrypted_vote_spec (h : String → String)
    (vid ct ts now ct2 ts2 now2 : String) (l : Ledger) (hwf : WF l) :
    ((∃ v ∈ l.votes, v.voter_id = vid) →
      store_encrypted_vote h vid ct ts now l = ((false, "Voter has already cast a vote"), l)) ∧
    ((∀ v ∈ l.votes, v.voter_id ≠ vid) →
      (store_encrypted_vote h vid ct ts now l).1 = (true, h (vid ++ ct ++ ts)) ∧
      (store_encrypted_vote h vid ct ts now l).2.votes =
        l.votes ++ [{ voter_id := vid, encrypted_vote := ct, timestamp := ts,
                      vote_hash := h (vid ++ ct ++ ts), tallied := false }] ∧
      (store_encrypted_vote h vid ct ts now l).2.metadata.total_votes =
        l.metadata.total_votes + 1 ∧
      store_encrypted_vote h vid ct2 ts2 now2 (store_encrypted_vote h vid ct ts now l).2 =
        ((false, "Voter has already cast a vote"), (store_encrypted_vote h vid ct ts now l).2)) := by
  constructor
  · intro hdup
    unfold store_encrypted_vote
    rw [if_pos ((store_any_iff vid l).mpr hdup)]
  · intro hfresh
    have hany : (l.votes.any (fun v => v.voter_id == vid)) = false := by
      rw [Bool.eq_false_iff]
      intro hc
      obtain ⟨v, hv, hveq⟩ := (store_any_iff vid l).mp hc
      exact hfresh v hv hveq
    refine ⟨?_, ?_, ?_, ?_⟩
    · unfold store_encrypted_vote
      rw [if_neg (by simp [hany])]
    · unfold store_encrypted_vote
      rw [if_neg (by simp [hany])]
    · unfold store_encrypted_vote
      rw [if_neg (by simp [hany])]
      simp only [List.length_append, List.length_cons, List.length_nil]
      unfold WF at hwf
      omega
    · have hmem :
        (store_encrypted_vote h vid ct ts now l).2.votes.any (fun v => v.voter_id == vid) = true := by
        unfold store_encrypted_vote
        rw [if_neg (by simp [hany])]
        simp
      conv_lhs => rw [store_encrypted_vote, if_pos hmem]

/-- Witness for C1 at a concrete input: the empty ledger is well-formed,
has no entry for voter V1, and storing V1 then V1 again succeeds the first
time and is rejected the second. -/
theorem store_encrypted_vote_spec_witness :
    (store_encrypted_vote hashF "V1" "c1" "T1" "n1" emptyLedger).1 =
      (true, hashF ("V1" ++ "c1" ++ "T1")) ∧
    store_encrypted_vote hashF "V1" "c2" "T2" "n2"
        (store_encrypted_vote hashF "V1" "c1" "T1" "n1" emptyLedger).2 =
      ((false, "Voter has already cast a vote"),
        (store_encrypted_vote hashF "V1" "c1" "T1" "n1" emptyLedger).2) := by
  have h := store_encrypted_vote_spec hashF "V1" "c1" "T1" "n1" "c2" "T2" "n2" emptyLedger
    (by simp [WF, emptyLedger])
  have h2 := h.2 (by simp [emptyLedger])
  exact ⟨h2.1, h2.2.2.2⟩

/-- Claim C2: with votes for candidates A, A, B from voters V1, V2, V3,
tallying incrementally after each append yields the same persisted
voteCounts and winner as one full tally over all three entries, namely
counts A 2, B 1 and winner A; and in general incremental mode accumulates
the new counts onto the persisted ones (defaulting to empty with no prior
result) while full mode rebuilds them from the new votes alone. -/
theorem incremental_matches_full_tally :
    (runA3.2.2 = some { vote_counts := [("A", 2), ("B", 1)], winner := some "A",
                        total_votes := 3, tally_type := "incremental" }) ∧
    (runFull.2.2 = some { vote_counts := [("A", 2), ("B", 1)], winner := some "A",
                          total_votes := 3, tally_type := "full" }) ∧
    (runA3.2.2.map (fun r => (r.vote_counts, r.winner)) =
      runFull.2.2.map (fun r => (r.vote_counts, r.winner))) ∧
    (∀ (prior : Results) (new : List DecryptedVote),
      (tally_votes (some prior) new true).vote_counts = countVotes prior.vote_counts new) ∧
    (∀ new : List DecryptedVote,
      (tally_votes none new true).vote_counts = countVotes [] new) ∧
    (∀ (existing : Option Results) (new : List DecryptedVote),
      (tally_votes existing new false).vote_counts = countVotes [] new) := by
  refine ⟨by decide, by decide, by decide, fun prior new => rfl, fun new => rfl,
    fun existing new => ?_⟩
  cases existing <;> rfl

/-- Claim C3: on a ledger just produced by add_blockchain_style_linking,
verify_blockchain_integrity recomputes the chain from the genesis hash and
reports valid; and after mutating exactly one entry's stored ciphertext (so
that the recomputed block hash no longer matches the stored one) it reports
the index of that entry as the first mismatch. -/
theorem verify_blockchain_integrity_spec (h : String → String) (l l' : Ledger)
    (hlink : add_blockchain_style_linking h l = some l') :
    verify_blockchain_integrity h l' = .valid ∧
    (∀ (i : Nat) (hi : i < l'.votes.length) (ct' : String),
      (l'.votes.get ⟨i, hi⟩).block_hash ≠
        ((l'.votes.get ⟨i, hi⟩).previous_hash).map
          (fun p => h ((l'.votes.get ⟨i, hi⟩).voter_id ++ ct' ++
            (l'.votes.get ⟨i, hi⟩).timestamp ++ p)) →
      verify_blockchain_integrity h
        { l' with
            votes := l'.votes.set i ({ l'.votes.get ⟨i, hi⟩ with encrypted_vote := ct' }) } =
        .mismatch i) := by
  unfold add_blockchain_style_linking at hlink
  cases hb : l.votes.isEmpty
  · rw [hb] at hlink
    simp only [Bool.false_eq_true, if_false, Option.some.injEq] at hlink
    subst hlink
    constructor
    · simp [verify_blockchain_integrity, verifyLoop_chainFold]
    · intro i hi ct' hneq
      have hi2 : i < ((chainFold h genesisHash 0 l.votes).1).length := hi
      have hne2 : ∀ p,
          (((chainFold h genesisHash 0 l.votes).1).get ⟨i, hi2⟩).previous_hash = some p →
          some (h ((((chainFold h genesisHash 0 l.votes).1).get ⟨i, hi2⟩).voter_id ++ ct' ++
            (((chainFold h genesisHash 0 l.votes).1).get ⟨i, hi2⟩).timestamp ++ p)) ≠
            (((chainFold h genesisHash 0 l.votes).1).get ⟨i, hi2⟩).block_hash := by
        intro p hp heq
        apply hneq
        show (((chainFold h genesisHash 0 l.votes).1).get ⟨i, hi2⟩).block_hash =
          ((((chainFold h genesisHash 0 l.votes).1).get ⟨i, hi2⟩).previous_hash).map
            (fun q => h ((((chainFold h genesisHash 0 l.votes).1).get ⟨i, hi2⟩).voter_id ++
              ct' ++ (((chainFold h genesisHash 0 l.votes).1).get ⟨i, hi2⟩).timestamp ++ q))
        rw [hp]
        simp only [Option.map_some']
        exact heq.symm
      have hm := verifyLoop_set_mutation h ct' l.votes genesisHash 0 i hi2 hne2
      rw [Nat.zero_add] at hm
      have hmatch : (match verifyLoop h genesisHash 0
          (((chainFold h genesisHash 0 l.votes).1).set i
            ({ ((chainFold h genesisHash 0 l.votes).1).get ⟨i, hi2⟩ with
                encrypted_vote := ct' })) with
        | some idx => VerifyResult.mismatch idx
        | none => VerifyResult.valid) = .mismatch i := by rw [hm]
      exact hmatch
  · rw [hb] at hlink
    simp at hlink

/-- The linked fixture: the one-vote ledger for V1 after
add_blockchain_style_linking. -/
def linkedA1 : Ledger := (add_blockchain_style_linking hashF ledA1).getD emptyLedger

/-- Witness for C3 at a concrete input: the linked one-vote ledger
verifies as valid, and corrupting the stored ciphertext of its entry 0
makes verification report index 0 as the first mismatch. -/
theorem verify_blockchain_integrity_spec_witness :
    verify_blockchain_integrity hashF linkedA1 = .valid ∧
    verify_blockchain_integrity hashF
      { linkedA1 with
          votes := linkedA1.votes.set 0
            ({ linkedA1.votes.get ⟨0, (by decide : 0 < linkedA1.votes.length)⟩ with
                encrypted_vote := "evil" }) } =
      .mismatch 0 := by
  have hsp := verify_blockchain_integrity_spec hashF ledA1 linkedA1 (by decide)
  exact ⟨hsp.1, hsp.2 0 (by decide) "evil" (by decide)⟩

/-- Claim C8: on any ledger with at least one entry,
add_blockchain_style_linking succeeds, preserves every entry's source
fields, assigns previous_hash starting from the 64-zero genesis hash and
then chaining each block hash into the next entry, computes every
block_hash as the hash of voter, ciphertext, timestamp and the stored
previous hash, numbers the blocks from 1, and re-running it over the
result reproduces exactly the same ledger. -/
theorem add_blockchain_style_linking_spec (h : String → String) (l : Ledger)
    (hne : l.votes ≠ []) :
    ∃ l', add_blockchain_style_linking h l = some l' ∧
      l'.votes.length = l.votes.length ∧
      (∀ (i : Nat) (hi : i < l'.votes.length) (hv : i < l.votes.length),
        (l'.votes.get ⟨i, hi⟩).voter_id = (l.votes.get ⟨i, hv⟩).voter_id ∧
        (l'.votes.get ⟨i, hi⟩).encrypted_vote = (l.votes.get ⟨i, hv⟩).encrypted_vote ∧
        (l'.votes.get ⟨i, hi⟩).timestamp = (l.votes.get ⟨i, hv⟩).timestamp ∧
        (l'.votes.get ⟨i, hi⟩).block_number = some (i + 1)) ∧
      (∀ hi0 : 0 < l'.votes.length, (l'.votes.get ⟨0, hi0⟩).previous_hash = some genesisHash) ∧
      (∀ (i : Nat) (hi1 : i + 1 < l'.votes.length) (hi0 : i < l'.votes.length),
        (l'.votes.get ⟨i + 1, hi1⟩).previous_hash = (l'.votes.get ⟨i, hi0⟩).block_hash) ∧
      (∀ (i : Nat) (hi : i < l'.votes.length), ∃ p,
        (l'.votes.get ⟨i, hi⟩).previous_hash = some p ∧
        (l'.votes.get ⟨i, hi⟩).block_hash =
          some (h ((l'.votes.get ⟨i, hi⟩).voter_id ++ (l'.votes.get ⟨i, hi⟩).encrypted_vote ++
            (l'.votes.get ⟨i, hi⟩).timestamp ++ p))) ∧
      add_blockchain_style_linking h l' = some l' := by
  have hemp : l.votes.isEmpty = false := by
    cases hv : l.votes with
    | nil => exact absurd hv hne
    | cons a t => rfl
  refine ⟨{ l with
      votes := (chainFold h genesisHash 0 l.votes).1
      blockchain_enabled := true
      chain_length := some ((chainFold h genesisHash 0 l.votes).1).length
      latest_block_hash := some (chainFold h genesisHash 0 l.votes).2 },
    ?_, ?_, ?_, ?_, ?_, ?_, ?_⟩
  · simp [add_blockchain_style_linking, hemp]
  · exact chainFold_length h l.votes genesisHash 0
  · intro i hi hv
    obtain ⟨h1, h2, h3, _h4, _h5, h6⟩ := chainFold_fields h l.votes genesisHash 0 i hi hv
    exact ⟨h1, h2, h3, by simpa using h6⟩
  · intro hi0
    exact chainFold_head_prev h l.votes genesisHash 0 hi0
  · intro i hi1 hi0
    exact chainFold_prev_succ h l.votes genesisHash 0 i hi1 hi0
  · intro i hi
    exact chainFold_block_formula h l.votes genesisHash 0 i hi
  · have hlen2 : ((chainFold h genesisHash 0 l.votes).1).length = l.votes.length :=
      chainFold_length h l.votes genesisHash 0
    have hemp2 : ((chainFold h genesisHash 0 l.votes).1).isEmpty = false := by
      cases hv2 : (chainFold h genesisHash 0 l.votes).1 with
      | nil =>
        rw [hv2] at hlen2
        exact absurd (List.length_eq_zero.mp hlen2.symm) hne
      | cons a t => rfl
    simp [add_blockchain_style_linking, hemp2, chainFold_idem]

/-- Witness for C8 at a concrete input: the one-vote ledger for V1 is
nonempty, so linking succeeds with all the stated chain properties. -/
theorem add_blockchain_style_linking_spec_witness :
    ∃ l', add_blockchain_style_linking hashF ledA1 = some l' ∧
      l'.votes.length = ledA1.votes.length ∧
      (∀ (i : Nat) (hi : i < l'.votes.length) (hv : i < ledA1.votes.length),
        (l'.votes.get ⟨i, hi⟩).voter_id = (ledA1.votes.get ⟨i, hv⟩).voter_id ∧
        (l'.votes.get ⟨i, hi⟩).encrypted_vote = (ledA1.votes.get ⟨i, hv⟩).encrypted_vote ∧
        (l'.votes.get ⟨i, hi⟩).timestamp = (ledA1.votes.get ⟨i, hv⟩).timestamp ∧
        (l'.votes.get ⟨i, hi⟩).block_number = some (i + 1)) ∧
      (∀ hi0 : 0 < l'.votes.length, (l'.votes.get ⟨0, hi0⟩).previous_hash = some genesisHash) ∧
      (∀ (i : Nat) (hi1 : i + 1 < l'.votes.length) (hi0 : i < l'.votes.length),
        (l'.votes.get ⟨i + 1, hi1⟩).previous_hash = (l'.votes.get ⟨i, hi0⟩).block_hash) ∧
      (∀ (i : Nat) (hi : i < l'.votes.length), ∃ p,
        (l'.votes.get ⟨i, hi⟩).previous_hash = some p ∧
        (l'.votes.get ⟨i, hi⟩).block_hash =
          some (hashF ((l'.votes.get ⟨i, hi⟩).voter_id ++ (l'.votes.get ⟨i, hi⟩).encrypted_vote ++
            (l'.votes.get ⟨i, hi⟩).timestamp ++ p))) ∧
      add_blockchain_style_linking hashF l' = some l' :=
  add_blockchain_style_linking_spec hashF ledA1 (by decide)

/-- Claim C4: during a tally over the selected range, every entry is
processed exactly once (successes and recorded soft failures partition the
range, so no per-entry failure stops the loop); the high-water mark is
moved past the end of the ledger exactly when at least one entry decrypted
successfully, otherwise the ledger is left unchanged; and with zero
successes on a non-empty range the tally_results run fails with
TallyFailed leaving ledger and results untouched. -/
theorem tally_soft_failure_spec (decrypt : String → Except String String) (tally_all : Bool)
    (l : Ledger) :
    ((decrypt_all_votes decrypt tally_all l).1.length =
      (votes_to_process tally_all l).countP (fun v => decOk decrypt v)) ∧
    ((decrypt_all_votes decrypt tally_all l).2.1.length =
      (votes_to_process tally_all l).countP (fun v => !decOk decrypt v)) ∧
    ((decrypt_all_votes decrypt tally_all l).1 ≠ [] →
      (decrypt_all_votes decrypt tally_all l).2.2 =
        { l with metadata := { l.metadata with
            last_tallied_index := (l.votes.length : Int) - 1 } }) ∧
    ((decrypt_all_votes decrypt tally_all l).1 = [] →
      (decrypt_all_votes decrypt tally_all l).2.2 = l) ∧
    (∀ (mode : String) (existing : Option Results),
      l.votes ≠ [] →
      (mode == "incremental" &&
        (((l.votes.length : Int) - (l.metadata.last_tallied_index + 1)) == 0)) = false →
      (decrypt_all_votes decrypt (mode == "full") l).1 = [] →
      tally_results decrypt mode l existing = (.tallyFailed, l, existing)) := by
  have hpl := processVotes_lengths decrypt (votes_to_process tally_all l)
  have hled := decrypt_all_votes_ledger decrypt tally_all l
  refine ⟨?_, ?_, hled.2, hled.1, ?_⟩
  · by_cases hl : (votes_to_process tally_all l).length = 0
    · have hv : votes_to_process tally_all l = [] := List.length_eq_zero.mp hl
      simp [decrypt_all_votes, hl, hv]
    · unfold decrypt_all_votes
      dsimp only
      rw [if_neg hl]
      split <;> exact hpl.1
  · by_cases hl : (votes_to_process tally_all l).length = 0
    · have hv : votes_to_process tally_all l = [] := List.length_eq_zero.mp hl
      simp [decrypt_all_votes, hl, hv]
    · unfold decrypt_all_votes
      dsimp only
      rw [if_neg hl]
      split <;> exact hpl.2
  · intro mode existing hne hcond hdec
    have hlen0 : ¬l.votes.length = 0 := by
      intro hz
      exact hne (List.length_eq_zero.mp hz)
    have hisEmpty : (decrypt_all_votes decrypt (mode == "full") l).1.isEmpty = true := by
      simp [hdec]
    have hunch := (decrypt_all_votes_ledger decrypt (mode == "full") l).1 hdec
    unfold tally_results
    dsimp only
    rw [if_neg hlen0, if_neg (by simp [hcond]), if_pos hisEmpty, hunch]

/-- Witness for C4 at a concrete input: three entries whose second
ciphertext is corrupted yield two tallied votes, one recorded failure, and
the high-water mark advanced past all three. -/
theorem tally_soft_failure_spec_witness :
    (decrypt_all_votes decryptF false led3).1.length = 2 ∧
    (decrypt_all_votes decryptF false led3).2.1.length = 1 ∧
    (decrypt_all_votes decryptF false led3).2.2 =
      { led3 with metadata := { led3.metadata with
          last_tallied_index := (led3.votes.length : Int) - 1 } } := by
  have hsp := tally_soft_failure_spec decryptF false led3
  refine ⟨?_, ?_, hsp.2.2.1 (by decide)⟩
  · rw [hsp.1]; decide
  · rw [hsp.2.1]; decide

/-- In incremental mode with a nonempty ledger whose entries are all
tallied (high-water mark at the last index), the run is rejected with
NoNewVotes and both persisted files are untouched. -/
theorem tally_results_no_new (decrypt : String → Except String String) (l : Ledger)
    (existing : Option Results) (hne : l.votes ≠ [])
    (hlast : l.metadata.last_tallied_index = (l.votes.length : Int) - 1) :
    tally_results decrypt "incremental" l existing = (.noNewVotes, l, existing) := by
  have hlen0 : ¬l.votes.length = 0 := by
    intro hz
    exact hne (List.length_eq_zero.mp hz)
  have hcond : (("incremental" : String) == "incremental" &&
      (((l.votes.length : Int) - (l.metadata.last_tallied_index + 1)) == 0)) = true := by
    rw [hlast]
    simp
  unfold tally_results
  dsimp only
  rw [if_neg hlen0, if_pos hcond]

/-- Claim C6: an incremental tally request on a nonempty ledger whose
high-water mark already covers every entry fails with NoNewVotes and
leaves the ledger (hence lastTalliedIndex) and the persisted results
unchanged; in particular, immediately after any successful incremental run
a second incremental run fails this way. -/
theorem no_new_votes_spec (decrypt : String → Except String String) (l : Ledger)
    (existing : Option Results) :
    (l.votes ≠ [] → l.metadata.last_tallied_index = (l.votes.length : Int) - 1 →
      tally_results decrypt "incremental" l existing = (.noNewVotes, l, existing)) ∧
    (∀ (res : Results) (n : Nat) (l2 : Ledger) (r2 : Option Results),
      tally_results decrypt "incremental" l existing = (.success res n, l2, r2) →
      tally_results decrypt "incremental" l2 r2 = (.noNewVotes, l2, r2)) := by
  constructor
  · exact tally_results_no_new decrypt l existing
  · intro res n l2 r2 heq
    unfold tally_results at heq
    dsimp only at heq
    by_cases h0 : l.votes.length = 0
    · rw [if_pos h0] at heq
      simp at heq
    · rw [if_neg h0] at heq
      by_cases hcond : (("incremental" : String) == "incremental" &&
          (((l.votes.length : Int) - (l.metadata.last_tallied_index + 1)) == 0)) = true
      · rw [if_pos hcond] at heq
        simp at heq
      · rw [if_neg hcond] at heq
        by_cases hemp : (decrypt_all_votes decrypt
            (("incremental" : String) == "full") l).1.isEmpty = true
        · rw [if_pos hemp] at heq
          simp at heq
        · rw [if_neg hemp] at heq
          have hff : (("incremental" : String) == "full") = false := rfl
          rw [hff] at heq hemp
          have hne2 : (decrypt_all_votes decrypt false l).1 ≠ [] := by
            intro hx
            exact hemp (by simp [hx])
          have hl2 := (decrypt_all_votes_ledger decrypt false l).2 hne2
          have hl2a : l2 = { l with metadata := { l.metadata with
              last_tallied_index := (l.votes.length : Int) - 1 } } := by
            have hcomp := congrArg (fun t => t.2.1) heq
            dsimp at hcomp
            rw [← hcomp, hl2]
          apply tally_results_no_new
          · rw [hl2a]
            intro hx
            exact h0 (by rw [show l.votes = [] from hx]; rfl)
          · rw [hl2a]

/-- Witness for C6 at a concrete input: after the third successful
incremental run of the A, A, B scenario, a fourth incremental run on its
output fails with NoNewVotes and changes nothing. -/
theorem no_new_votes_spec_witness :
    tally_results decryptF "incremental" runA3.2.1 runA3.2.2 =
      (.noNewVotes, runA3.2.1, runA3.2.2) :=
  (no_new_votes_spec decryptF runA3.2.1 runA3.2.2).1 (by decide) (by decide)

/-- Python max over a running best that is replaced only on a strictly
greater key: the result splits the list into a strictly smaller prefix, the
first maximal element, and a no-greater suffix. -/
theorem foldlMax_decomp :
    ∀ (rest : List (String × Nat)) (p : String × Nat),
      ∃ pre suf,
        p :: rest = pre ++ (rest.foldl (fun best q => if q.2 > best.2 then q else best) p) :: suf ∧
        (∀ q ∈ pre, q.2 < (rest.foldl (fun best q => if q.2 > best.2 then q else best) p).2) ∧
        (∀ q ∈ suf, q.2 ≤ (rest.foldl (fun best q => if q.2 > best.2 then q else best) p).2) := by
  intro rest
  induction rest with
  | nil => intro p; exact ⟨[], [], rfl, by simp, by simp⟩
  | cons q rest ih =>
    intro p
    rw [List.foldl_cons]
    obtain ⟨pre, suf, hdec, hpre, hsuf⟩ := ih (if q.2 > p.2 then q else p)
    by_cases hq : q.2 > p.2
    · rw [if_pos hq] at hdec hpre hsuf ⊢
      have hqw : q.2 ≤ (rest.foldl (fun best q => if q.2 > best.2 then q else best) q).2 := by
        cases pre with
        | nil =>
          simp only [List.nil_append, List.cons.injEq] at hdec
          rw [← hdec.1]
        | cons a pre2 =>
          simp only [List.cons_append, List.cons.injEq] at hdec
          exact le_of_lt (hdec.1.symm ▸ hpre a (by simp))
      refine ⟨p :: pre, suf, ?_, ?_, hsuf⟩
      · rw [List.cons_append, ← hdec]
      · intro x hx
        rcases List.mem_cons.mp hx with hxp | hxpre
        · rw [hxp]
          exact lt_of_lt_of_le hq hqw
        · exact hpre x hxpre
    · rw [if_neg hq] at hdec hpre hsuf ⊢
      push_neg at hq
      cases pre with
      | nil =>
        simp only [List.nil_append, List.cons.injEq] at hdec
        refine ⟨[], q :: suf, ?_, by simp, ?_⟩
        · rw [List.nil_append, ← hdec.1, hdec.2]
        · intro x hx
          rcases List.mem_cons.mp hx with hxq | hxsuf
          · rw [hxq, ← hdec.1]
            exact hq
          · exact hsuf x hxsuf
      | cons a pre2 =>
        simp only [List.cons_append, List.cons.injEq] at hdec
        refine ⟨p :: q :: pre2, suf, ?_, ?_, hsuf⟩
        · conv_lhs => rw [hdec.2]
          rfl
        · intro x hx
          have hpw : p.2 < (rest.foldl (fun best q => if q.2 > best.2 then q else best) p).2 := by
            have := hpre a (by simp)
            rw [← hdec.1] at this
            exact this
          rcases List.mem_cons.mp hx with hxp | hx2
          · rw [hxp]
            exact hpw
          · rcases List.mem_cons.mp hx2 with hxq | hxpre2
            · rw [hxq]
              exact lt_of_le_of_lt hq hpw
            · exact hpre x (by simp [hxpre2])

/-- Claim C7: the winner computed by tally_votes is firstMaxKey of its
vote_counts; on the empty counts mapping the winner is none; on a nonempty
counts mapping the winner is the key of an element that strictly beats
every earlier element and is not beaten by any later one (first-encountered
tie-break in aggregation order); and a full tally over one vote for A
followed by one for B yields counts A 1, B 1 with winner A. -/
theorem winner_spec (existing : Option Results) (new : List DecryptedVote)
    (incremental : Bool) (counts : List (String × Nat)) :
    ((tally_votes existing new incremental).winner =
      firstMaxKey (tally_votes existing new incremental).vote_counts) ∧
    (firstMaxKey [] = none) ∧
    (counts ≠ [] → ∃ pre w suf, counts = pre ++ w :: suf ∧
      firstMaxKey counts = some w.1 ∧
      (∀ q ∈ pre, q.2 < w.2) ∧ (∀ q ∈ suf, q.2 ≤ w.2)) ∧
    ((tally_votes none [⟨"V1", "A", "T1"⟩, ⟨"V2", "B", "T2"⟩] false).vote_counts =
      [("A", 1), ("B", 1)] ∧
     (tally_votes none [⟨"V1", "A", "T1"⟩, ⟨"V2", "B", "T2"⟩] false).winner = some "A") := by
  refine ⟨rfl, rfl, ?_, by decide, by decide⟩
  intro hne
  cases counts with
  | nil => exact absurd rfl hne
  | cons p rest =>
    obtain ⟨pre, suf, hdec, hpre, hsuf⟩ := foldlMax_decomp rest p
    exact ⟨pre, rest.foldl (fun best q => if q.2 > best.2 then q else best) p, suf,
      hdec, by rfl, hpre, hsuf⟩

/-- Witness for C7 at a concrete input: the tied counts mapping A 1, B 1
is nonempty and its first maximal element is A. -/
theorem winner_spec_witness :
    ∃ pre w suf, ([("A", 1), ("B", 1)] : List (String × Nat)) = pre ++ w :: suf ∧
      firstMaxKey [("A", 1), ("B", 1)] = some w.1 ∧
      (∀ q ∈ pre, q.2 < w.2) ∧ (∀ q ∈ suf, q.2 ≤ w.2) :=
  (winner_spec none [] false [("A", 1), ("B", 1)]).2.2.1 (by decide)

/-- Claim C5, demonstration of the divergence in the code: a vote appended
while a tally run sits between its snapshot load and its final save is
accepted (ingestion is not blocked) and lands in the file, the tally run
succeeds, yet the final persisted ledger no longer contains the appended
voter, because decrypt_all_votes saves its stale snapshot over the file:
the vote accepted mid-tally is lost rather than picked up by the next
incremental run. -/
theorem mid_tally_append_lost :
    (append_during_tally hashF decryptF "V2" "c2" "T2" "n2" ledA1).1.1 = true ∧
    (decrypt_all_votes decryptF false ledA1).1 ≠ [] ∧
    ((store_encrypted_vote hashF "V2" "c2" "T2" "n2" ledA1).2.votes.map
      (fun v => v.voter_id)) = ["V1", "V2"] ∧
    ((append_during_tally hashF decryptF "V2" "c2" "T2" "n2" ledA1).2.votes.map
      (fun v => v.voter_id)) = ["V1"] :=
  ⟨by decide, by decide, by decide, by decide⟩

/-- Claim C9: load_ledger is total over file states: every read failure
(file missing, unreadable, or not valid JSON) yields exactly the default
empty ledger document with no votes, total_votes 0 and last_tallied_index
-1, so storing and tallying against a failed file behave exactly as
against a stored empty ledger. -/
theorem load_ledger_total (fs : FileState)
    (hbad : fs = .missing ∨ fs = .unreadable ∨ fs = .notValidJSON) :
    load_ledger fs = emptyLedger ∧
    load_ledger fs =
      { votes := []
        metadata := { total_votes := 0, last_tallied_index := -1, last_updated := none }
        blockchain_enabled := false
        chain_length := none
        latest_block_hash := none } ∧
    (∀ (h : String → String) (vid ct ts now : String),
      store_vote_file h vid ct ts now fs =
        store_vote_file h vid ct ts now (.stored emptyLedger)) ∧
    (∀ (decrypt : String → Except String String) (mode : String) (existing : Option Results),
      tally_results_file decrypt mode fs existing =
        tally_results_file decrypt mode (.stored emptyLedger) existing) := by
  rcases hbad with rfl | rfl | rfl <;>
    exact ⟨rfl, rfl, fun h vid ct ts now => rfl, fun d m e => rfl⟩

/-- Witness for C9 at a concrete input: a missing ledger file loads as the
empty ledger and stores a vote exactly as a stored empty ledger would. -/
theorem load_ledger_total_witness :
    load_ledger .missing = emptyLedger ∧
    store_vote_file hashF "V1" "c1" "T1" "n1" .missing =
      store_vote_file hashF "V1" "c1" "T1" "n1" (.stored emptyLedger) := by
  have hsp := load_ledger_total .missing (Or.inl rfl)
  exact ⟨hsp.1, hsp.2.2.1 hashF "V1" "c1" "T1" "n1"⟩

/-- Linking does not touch the tallied flag: every entry of the linked
list has the tallied value of some entry of the input list. -/
theorem chainFold_mem_tallied (h : String → String) :
    ∀ (vs : List VoteEntry) (prev : String) (idx : Nat) (v : VoteEntry),
      v ∈ (chainFold h prev idx vs).1 → ∃ u ∈ vs, v.tallied = u.tallied := by
  intro vs
  induction vs with
  | nil => intro prev idx v hv; simp [chainFold_nil] at hv
  | cons v0 rest ih =>
    intro prev idx v hv
    rw [chainFold_cons] at hv
    rcases List.mem_cons.mp hv with hhead | htail
    · exact ⟨v0, by simp, by rw [hhead]⟩
    · obtain ⟨u, hu, ht⟩ := ih _ (idx + 1) v htail
      exact ⟨u, by simp [hu], ht⟩

/-- Claim C10: in every reachable persisted ledger state, the tallied flag
of every stored entry is false: entries are created with tallied := false,
tally runs only move the metadata high-water mark, and chain linking only
writes the chain fields, so no operation ever sets tallied to true. -/
theorem tallied_always_false (h : String → String) (l : Ledger) (hr : Reachable h l) :
    ∀ v ∈ l.votes, v.tallied = false := by
  induction hr with
  | init => intro v hv; simp [emptyLedger] at hv
  | @store vid ct ts now l0 hR ih =>
    intro v hv
    unfold store_encrypted_vote at hv
    by_cases hdup : (l0.votes.any fun x => x.voter_id == vid) = true
    · rw [if_pos hdup] at hv
      exact ih v hv
    · rw [if_neg hdup] at hv
      simp only [List.mem_append, List.mem_singleton] at hv
      rcases hv with hold | hnew
      · exact ih v hold
      · rw [hnew]
  | @tally d mode existing l0 hR ih =>
    intro v hv
    rw [tally_results_votes] at hv
    exact ih v hv
  | @link l0 l1 hR hlink ih =>
    intro v hv
    unfold add_blockchain_style_linking at hlink
    by_cases hb : l0.votes.isEmpty = true
    · rw [if_pos hb] at hlink
      exact absurd hlink (by simp)
    · rw [if_neg hb] at hlink
      have hrec : { l0 with
          votes := (chainFold h genesisHash 0 l0.votes).1
          blockchain_enabled := true
          chain_length := some ((chainFold h genesisHash 0 l0.votes).1).length
          latest_block_hash := some (chainFold h genesisHash 0 l0.votes).2 } = l1 :=
        Option.some.inj hlink
      have hv2 : v ∈ (chainFold h genesisHash 0 l0.votes).1 := by
        have hvotes : l1.votes = (chainFold h genesisHash 0 l0.votes).1 := by
          rw [← hrec]
        rw [hvotes] at hv
        exact hv
      obtain ⟨u, hu, ht⟩ := chainFold_mem_tallied h l0.votes genesisHash 0 v hv2
      rw [ht]
      exact ih u hu

/-- Witness for C10 at a concrete input: the reachable one-vote ledger for
V1 has no entry with tallied set. -/
theorem tallied_always_false_witness :
    (ledA1.votes.all fun v => v.tallied == false) = true := by
  have hfacts := tallied_always_false hashF ledA1
    (Reachable.store "V1" "c1" "T1" "n1" Reachable.init)
  simp only [List.all_eq_true]
  intro v hv
  simpa using hfacts v hv

end EVoting
